import Mathlib

/-!
Verification of the natural-language specification of `pyspark/rdd.py`
(the RDD abstraction: pipelined narrow transformations, hash shuffle,
combine-by-key protocol, reduce/fold, take/collect, and the staged
bulk-collect cleanup) against a shallow embedding of the source.

Partitions are embedded as Lean lists (a partition's element sequence),
per-partition functions as `List α → List α`, and a whole dataset as a
`List (List α)` of its partitions in index order.
-/

namespace SgxSpark

/-! ## Dataset nodes and the fusion engine

`JavaRDD` stands for a backend RDD handle (`_jrdd` in the source): either an
opaque data source or a `PythonRDD` submission wrapping an upstream handle
with a pickled per-partition function and a `preservesPartitioning` flag.
`PyRDD` mirrors the Python-side objects: a plain `RDD` (wrapping a handle)
or a `PipelinedRDD` with fields `prev`, `_prev_jrdd`, `func`,
`preservesPartitioning`, `is_cached`, in that order.  Batching of elements
for transport (`batched_func`) is element-grouping at the serialization
boundary and is elided. -/

inductive JavaRDD (α : Type) where
  | source : Nat → JavaRDD α
  | pythonRDD : JavaRDD α → (List α → List α) → Bool → JavaRDD α

/-- Number of chained backend submissions above the underlying source:
each `pythonRDD` layer is one submitted unit of work. -/
def JavaRDD.depth {α : Type} : JavaRDD α → Nat
  | .source _ => 0
  | .pythonRDD p _ _ => p.depth + 1

inductive PyRDD (α : Type) where
  | plain : JavaRDD α → Bool → PyRDD α
  | pipelined : PyRDD α → JavaRDD α → (List α → List α) → Bool → Bool → PyRDD α

/-- Backend handle of a node: a plain node returns its wrapped handle; a
pipelined node's `_jrdd` property builds a `PythonRDD` submission from its
`_prev_jrdd`, its composed `func` and its `preservesPartitioning` flag. -/
def PyRDD.jrdd {α : Type} : PyRDD α → JavaRDD α
  | .plain j _ => j
  | .pipelined _ pj f pp _ => .pythonRDD pj f pp

def PyRDD.isCachedB {α : Type} : PyRDD α → Bool
  | .plain _ c => c
  | .pipelined _ _ _ _ c => c

def PyRDD.funcOf {α : Type} : PyRDD α → Option (List α → List α)
  | .plain _ _ => none
  | .pipelined _ _ f _ _ => some f

def PyRDD.ppOf {α : Type} : PyRDD α → Option Bool
  | .plain _ _ => none
  | .pipelined _ _ _ pp _ => some pp

def PyRDD.prevJrddOf {α : Type} : PyRDD α → Option (JavaRDD α)
  | .plain _ _ => none
  | .pipelined _ pj _ _ _ => some pj

/-- True exactly for the nodes the fusion branch of `PipelinedRDD.__init__`
accepts: an uncached `PipelinedRDD`. -/
def PyRDD.fusable {α : Type} : PyRDD α → Bool
  | .pipelined _ _ _ _ false => true
  | _ => false

/-- Embedding of `PipelinedRDD.__init__(prev, func, preservesPartitioning)`:
when `prev` is an uncached `PipelinedRDD`, the new function is
`func(prev.func(iterator))`, `preservesPartitioning` is the conjunction of
both flags, and `_prev_jrdd` is `prev._prev_jrdd`; otherwise the new node
wraps `prev._jrdd` directly with the given function and flag. -/
def mkPipelined {α : Type} : PyRDD α → (List α → List α) → Bool → PyRDD α
  | .pipelined p pj pf ppp false, func, pp =>
      .pipelined (.pipelined p pj pf ppp false) pj
        (fun it => func (pf it)) (ppp && pp) false
  | prev, func, pp => .pipelined prev prev.jrdd func pp false

/-- Embedding of `RDD.cache`: sets `is_cached` on the node. -/
def RDD.cache {α : Type} : PyRDD α → PyRDD α
  | .plain j _ => .plain j true
  | .pipelined p pj f pp _ => .pipelined p pj f pp true

/-- Embedding of `RDD.map(f, preservesPartitioning)`. -/
def RDD.map {α : Type} (r : PyRDD α) (f : α → α) (pp : Bool) : PyRDD α :=
  mkPipelined r (fun it => it.map f) pp

/-- Embedding of `RDD.mapPartitions(f, preservesPartitioning)`. -/
def RDD.mapPartitions {α : Type} (r : PyRDD α) (f : List α → List α) (pp : Bool) : PyRDD α :=
  mkPipelined r f pp

/-- Embedding of `RDD.flatMap(f, preservesPartitioning)`:
`chain.from_iterable(imap(f, iterator))` routed through `mapPartitions`. -/
def RDD.flatMap {α : Type} (r : PyRDD α) (f : α → List α) (pp : Bool) : PyRDD α :=
  RDD.mapPartitions r (fun it => (it.map f).flatten) pp

/-- Embedding of `RDD.filter(f)`: `ifilter(f, iterator)` routed through
`mapPartitions` with the default `preservesPartitioning=False`. -/
def RDD.filter {α : Type} (r : PyRDD α) (f : α → Bool) : PyRDD α :=
  RDD.mapPartitions r (fun it => it.filter f) false

/-- Embedding of `RDD.mapValues(f)`: a value-only map issued with
`preservesPartitioning=True`. -/
def RDD.mapValues {κ ν : Type} (r : PyRDD (κ × ν)) (f : ν → ν) : PyRDD (κ × ν) :=
  RDD.map r (fun kv => (kv.1, f kv.2)) true

/-- Embedding of `RDD.flatMapValues(f)`: a value-only flatMap issued with
`preservesPartitioning=True`. -/
def RDD.flatMapValues {κ ν : Type} (r : PyRDD (κ × ν)) (f : ν → List ν) : PyRDD (κ × ν) :=
  RDD.flatMap r (fun kv => (f kv.2).map (fun x => (kv.1, x))) true

/-- One user-level narrow transformation call, as issued on an `RDD`. -/
inductive NarrowOp (α : Type) where
  | mapOp : (α → α) → Bool → NarrowOp α
  | filterOp : (α → Bool) → NarrowOp α
  | flatMapOp : (α → List α) → Bool → NarrowOp α
  | mapPartitionsOp : (List α → List α) → Bool → NarrowOp α

/-- Per-partition semantics of a single narrow transformation, exactly the
function the corresponding `RDD` method builds. -/
def NarrowOp.run {α : Type} : NarrowOp α → List α → List α
  | .mapOp f _, it => it.map f
  | .filterOp f, it => it.filter f
  | .flatMapOp f _, it => (it.map f).flatten
  | .mapPartitionsOp f _, it => f it

/-- Stage-level `preservesPartitioning` flag the call passes down
(`filter` always passes the default `False`). -/
def NarrowOp.flag {α : Type} : NarrowOp α → Bool
  | .mapOp _ pp => pp
  | .filterOp _ => false
  | .flatMapOp _ pp => pp
  | .mapPartitionsOp _ pp => pp

def NarrowOp.apply {α : Type} (op : NarrowOp α) (r : PyRDD α) : PyRDD α :=
  match op with
  | .mapOp f pp => RDD.map r f pp
  | .filterOp f => RDD.filter r f
  | .flatMapOp f pp => RDD.flatMap r f pp
  | .mapPartitionsOp f pp => RDD.mapPartitions r f pp

/-- Chain of user-level narrow transformation calls, left to right. -/
def applyOps {α : Type} (r : PyRDD α) (ops : List (NarrowOp α)) : PyRDD α :=
  ops.foldl (fun r op => op.apply r) r

/-- Sequential per-partition semantics of a chain: apply each
transformation's function in order. -/
def runOps {α : Type} (ops : List (NarrowOp α)) (it : List α) : List α :=
  ops.foldl (fun it op => op.run it) it

theorem NarrowOp.apply_pipelined {α : Type} (op : NarrowOp α) (p : PyRDD α)
    (pj : JavaRDD α) (f : List α → List α) (pp : Bool) :
    op.apply (.pipelined p pj f pp false) =
      .pipelined (.pipelined p pj f pp false) pj
        (fun it => op.run (f it)) (pp && op.flag) false := by
  cases op <;> rfl

theorem NarrowOp.apply_plain {α : Type} (op : NarrowOp α) (j : JavaRDD α) (c : Bool) :
    op.apply (.plain j c) =
      .pipelined (.plain j c) j (fun it => op.run it) op.flag false := by
  cases op <;> rfl

theorem applyOps_pipelined_aux {α : Type} (ops : List (NarrowOp α)) :
    ∀ (p : PyRDD α) (pj : JavaRDD α) (f : List α → List α) (pp : Bool),
    ∃ p' f' pp',
      applyOps (.pipelined p pj f pp false) ops = .pipelined p' pj f' pp' false
      ∧ (∀ it, f' it = runOps ops (f it))
      ∧ pp' = ops.foldl (fun b op => b && op.flag) pp := by
  induction ops with
  | nil =>
      intro p pj f pp
      exact ⟨p, f, pp, rfl, fun it => rfl, rfl⟩
  | cons op rest ih =>
      intro p pj f pp
      have hstep := NarrowOp.apply_pipelined op p pj f pp
      have : applyOps (.pipelined p pj f pp false) (op :: rest) =
          applyOps (.pipelined (.pipelined p pj f pp false) pj
            (fun it => op.run (f it)) (pp && op.flag) false) rest := by
        simp [applyOps, hstep]
      rw [this]
      obtain ⟨p', f', pp', heq, hf, hpp⟩ :=
        ih (.pipelined p pj f pp false) pj (fun it => op.run (f it)) (pp && op.flag)
      exact ⟨p', f', pp', heq, fun it => hf it, hpp⟩

/-- C1: atop an uncached pipelined node the new per-partition function is the
composition `g(f(iterator))` and the node keeps the original upstream handle;
a whole chain of narrow calls over a plain source therefore collapses to a
single node whose function equals running each transformation's function in
sequence, whose `_prev_jrdd` is the original source handle, and whose backend
handle stacks exactly one submission above that source, independent of the
number of user-level calls. -/
theorem narrow_chain_fuses {α : Type} (base : JavaRDD α) (c : Bool)
    (op : NarrowOp α) (ops : List (NarrowOp α))
    (p : PyRDD α) (pj : JavaRDD α) (f : List α → List α) (pp : Bool)
    (g : List α → List α) (gp : Bool) :
    (mkPipelined (.pipelined p pj f pp false) g gp =
        .pipelined (.pipelined p pj f pp false) pj
          (fun it => g (f it)) (pp && gp) false)
    ∧ (∃ p' f' pp',
        applyOps (.plain base c) (op :: ops) = .pipelined p' base f' pp' false
        ∧ (∀ it, f' it = runOps (op :: ops) it)
        ∧ (applyOps (.plain base c) (op :: ops)).jrdd.depth = base.depth + 1) := by
  constructor
  · rfl
  · have hstep := NarrowOp.apply_plain op base c
    have hchain : applyOps (.plain base c) (op :: ops) =
        applyOps (.pipelined (.plain base c) base
          (fun it => op.run it) op.flag false) ops := by
      simp [applyOps, hstep]
    obtain ⟨p', f', pp', heq, hf, _⟩ :=
      applyOps_pipelined_aux ops (.plain base c) base (fun it => op.run it) op.flag
    refine ⟨p', f', pp', hchain.trans heq, ?_, ?_⟩
    · intro it
      exact hf it
    · rw [hchain, heq]
      rfl

/-- C7: a cached node is a materialization boundary.  Building any narrow
transformation atop `cache r` takes the non-fusing branch: the new node's
function is exactly the supplied `g` (no composition with the cached node's
function), its upstream handle is the cached node's own backend handle
`(cache r).jrdd` (its materialized output), and every downstream consumer
references that same handle. -/
theorem cache_blocks_fusion {α : Type} (r : PyRDD α)
    (g g₂ : List α → List α) (pp pp₂ : Bool) :
    (RDD.cache r).isCachedB = true
    ∧ mkPipelined (RDD.cache r) g pp =
        .pipelined (RDD.cache r) (RDD.cache r).jrdd g pp false
    ∧ (mkPipelined (RDD.cache r) g pp).funcOf = some g
    ∧ (mkPipelined (RDD.cache r) g pp).prevJrddOf = some ((RDD.cache r).jrdd)
    ∧ (mkPipelined (RDD.cache r) g₂ pp₂).prevJrddOf = some ((RDD.cache r).jrdd) := by
  cases r <;> exact ⟨rfl, rfl, rfl, rfl, rfl⟩

/-- C9 counterexample: `mapValues` fused atop a plain `map` (whose stage flag
is the default `False`) yields a node whose `preservesPartitioning` flag is
`false`, contradicting the claim that the value-only transformations produce
nodes with `preservesPartitioning` true. -/
theorem preservesPartitioning_counterexample :
    (RDD.mapValues
      (RDD.map (PyRDD.plain (.source 0) false : PyRDD (Nat × Nat))
        (fun x => x) false)
      (fun v => v)).ppOf = some false := rfl

/-- C9 amended: plain element transformations (`map`, `flatMap` with the
default flag, and `filter` always) produce nodes whose flag is `false`;
`mapValues` and `flatMapValues` pass a stage flag of `true`, so atop any
non-fusing upstream (a plain or cached node) the produced node's flag is
`true`; and when a stage is fused atop an uncached pipelined node the fused
node's flag is the conjunction of the upstream node's flag and the new
stage's flag. -/
theorem preservesPartitioning_amended {κ ν : Type} (prev : PyRDD (κ × ν))
    (f : κ × ν → κ × ν) (pb : κ × ν → Bool) (g : κ × ν → List (κ × ν))
    (v : ν → ν) (w : ν → List ν)
    (p : PyRDD (κ × ν)) (pj : JavaRDD (κ × ν))
    (pf gf : List (κ × ν) → List (κ × ν)) (ppf gp : Bool) :
    (RDD.map prev f false).ppOf = some false
    ∧ (RDD.filter prev pb).ppOf = some false
    ∧ (RDD.flatMap prev g false).ppOf = some false
    ∧ (prev.fusable = false →
        (RDD.mapValues prev v).ppOf = some true
        ∧ (RDD.flatMapValues prev w).ppOf = some true)
    ∧ (mkPipelined (.pipelined p pj pf ppf false) gf gp).ppOf = some (ppf && gp) := by
  refine ⟨?_, ?_, ?_, ?_, rfl⟩
  · cases prev with
    | plain j c => rfl
    | pipelined q qj qf qpp qc => cases qc <;> simp [RDD.map, mkPipelined, PyRDD.ppOf]
  · cases prev with
    | plain j c => rfl
    | pipelined q qj qf qpp qc => cases qc <;> simp [RDD.filter, RDD.mapPartitions, mkPipelined, PyRDD.ppOf]
  · cases prev with
    | plain j c => rfl
    | pipelined q qj qf qpp qc => cases qc <;> simp [RDD.flatMap, RDD.mapPartitions, mkPipelined, PyRDD.ppOf]
  · intro h
    cases prev with
    | plain j c => exact ⟨rfl, rfl⟩
    | pipelined q qj qf qpp qc =>
        cases qc with
        | false => simp [PyRDD.fusable] at h
        | true => exact ⟨rfl, rfl⟩

/-- C9 amended witness at concrete inputs: `mapValues` atop a plain node has
flag `true`, and a default `map` atop the same node has flag `false`. -/
theorem preservesPartitioning_amended_witness :
    (RDD.mapValues (PyRDD.plain (.source 0) false : PyRDD (Nat × Nat))
      (fun v => v)).ppOf = some true
    ∧ (RDD.map (PyRDD.plain (.source 0) false : PyRDD (Nat × Nat))
        (fun x => x) false).ppOf = some false := by
  have h := preservesPartitioning_amended
    (PyRDD.plain (.source 0) false : PyRDD (Nat × Nat))
    (fun x => x) (fun _ => true) (fun x => [x]) (fun v => v) (fun v => [v])
    (PyRDD.plain (.source 0) false) (.source 0) (fun it => it) (fun it => it)
    false false
  exact ⟨(h.2.2.2.1 rfl).1, h.1⟩

/-! ## Partitioner and shuffle materializer

`add_shuffle_key` embeds the local bucketing pass of `RDD.partitionBy`: a
fold over the partition's records appending each `(k, v)` to the bucket
`hashFunc(k) % numSplits`.  The exchange phase hands destination `d` the
concatenation, in source-partition index order, of every source's bucket
`d` (`partitionByParts`).  Serialization (`dump_pickle`/`Batch`) is the
transport encoding and is elided. -/

def add_shuffle_key {κ V : Type} (hashFunc : κ → Nat) (numSplits : Nat)
    (part : List (κ × V)) : Nat → List (κ × V) :=
  part.foldl
    (fun buckets kv i =>
      if hashFunc kv.1 % numSplits = i then buckets i ++ [kv] else buckets i)
    (fun _ => [])

/-- Embedding of `RDD.partitionBy` at the partition level: destination
partition `d < numSplits` receives every source partition's bucket `d`, in
source index order. -/
def partitionByParts {κ V : Type} (hashFunc : κ → Nat) (numSplits : Nat)
    (parts : List (List (κ × V))) : List (List (κ × V)) :=
  (List.range numSplits).map
    (fun d => (parts.map (fun p => add_shuffle_key hashFunc numSplits p d)).flatten)

theorem add_shuffle_key_aux {κ V : Type} (hashFunc : κ → Nat) (n : Nat)
    (part : List (κ × V)) :
    ∀ (buckets : Nat → List (κ × V)) (d : Nat),
    (part.foldl
      (fun buckets kv i =>
        if hashFunc kv.1 % n = i then buckets i ++ [kv] else buckets i)
      buckets) d
    = buckets d ++ part.filter (fun kv => decide (hashFunc kv.1 % n = d)) := by
  induction part with
  | nil => intro buckets d; simp
  | cons kv rest ih =>
      intro buckets d
      rw [List.foldl_cons, ih]
      by_cases h : hashFunc kv.1 % n = d
      · simp [h]
      · simp [h]

/-- Bucket `d` of a source partition is exactly the subsequence of the
partition's records whose key hashes to `d`, in arrival order. -/
theorem add_shuffle_key_eq_filter {κ V : Type} (hashFunc : κ → Nat) (n : Nat)
    (part : List (κ × V)) (d : Nat) :
    add_shuffle_key hashFunc n part d
      = part.filter (fun kv => decide (hashFunc kv.1 % n = d)) := by
  have h := add_shuffle_key_aux hashFunc n part (fun _ => []) d
  simpa [add_shuffle_key] using h

/-! ## Key-to-combiner maps

Python dicts keyed by `k`, as built by `combineLocally` and
`_mergeCombiners` inside `RDD.combineByKey`, are embedded as association
lists in key-first-occurrence order with unique keys. -/

def alookup {κ C : Type} [DecidableEq κ] (k : κ) : List (κ × C) → Option C
  | [] => none
  | (k', c) :: rest => if k = k' then some c else alookup k rest

/-- Dict write `m[k] = g(m.get(k))`: replace the entry in place when the key
is present, append a fresh entry otherwise. -/
def upsert {κ C : Type} [DecidableEq κ] (k : κ) (g : Option C → C) :
    List (κ × C) → List (κ × C)
  | [] => [(k, g none)]
  | (k', c) :: rest =>
      if k = k' then (k', g (some c)) :: rest else (k', c) :: upsert k g rest

def keysOf {κ C : Type} (m : List (κ × C)) : List κ := m.map Prod.fst

/-- Values carried by key `k` in a record list, in arrival order. -/
def valuesOf {κ V : Type} [DecidableEq κ] (k : κ) (m : List (κ × V)) : List V :=
  (m.filter (fun kv => decide (kv.1 = k))).map Prod.snd

/-- Shared shape of `combineLocally` and `_mergeCombiners` in
`RDD.combineByKey`: fold the records of one partition into a key-to-combiner
dict, calling `init` on a key's first occurrence and `step` on each
subsequent occurrence in arrival order. -/
def combineFold {κ V C : Type} [DecidableEq κ] (init : V → C) (step : C → V → C)
    (part : List (κ × V)) : List (κ × C) :=
  part.foldl
    (fun m kv =>
      upsert kv.1
        (fun oc => match oc with
          | none => init kv.2
          | some c => step c kv.2) m)
    []

/-- Combined value a `combineFold` pass produces from a key's value
sequence. -/
def aggOf {V C : Type} (init : V → C) (step : C → V → C) :
    List V → Option C
  | [] => none
  | v :: vs => some (vs.foldl step (init v))

theorem alookup_upsert_self {κ C : Type} [DecidableEq κ] (k : κ)
    (g : Option C → C) (m : List (κ × C)) :
    alookup k (upsert k g m) = some (g (alookup k m)) := by
  induction m with
  | nil => simp [upsert, alookup]
  | cons kc rest ih =>
      obtain ⟨k', c⟩ := kc
      by_cases h : k = k'
      · subst h; simp [upsert, alookup]
      · simp [upsert, alookup, h, ih]

theorem alookup_upsert_ne {κ C : Type} [DecidableEq κ] {k k₁ : κ} (h : k ≠ k₁)
    (g : Option C → C) (m : List (κ × C)) :
    alookup k (upsert k₁ g m) = alookup k m := by
  induction m with
  | nil => simp [upsert, alookup, h]
  | cons kc rest ih =>
      obtain ⟨k', c⟩ := kc
      by_cases h1 : k₁ = k'
      · subst h1; simp [upsert, alookup, h, ih]
      · by_cases h2 : k = k'
        · subst h2; simp [upsert, alookup, h1, Ne.symm h]
        · simp [upsert, alookup, h1, h2, ih]

theorem valuesOf_cons {κ V : Type} [DecidableEq κ] (k k₁ : κ) (v : V)
    (rest : List (κ × V)) :
    valuesOf k ((k₁, v) :: rest)
      = if k₁ = k then v :: valuesOf k rest else valuesOf k rest := by
  by_cases h : k₁ = k <;> simp [valuesOf, h]

theorem combineFold_aux {κ V C : Type} [DecidableEq κ] (init : V → C)
    (step : C → V → C) (part : List (κ × V)) :
    ∀ (m : List (κ × C)) (k : κ),
    alookup k (part.foldl
      (fun m kv =>
        upsert kv.1
          (fun oc => match oc with
            | none => init kv.2
            | some c => step c kv.2) m)
      m)
    = (match alookup k m with
       | none => aggOf init step (valuesOf k part)
       | some c => some ((valuesOf k part).foldl step c)) := by
  induction part with
  | nil =>
      intro m k
      cases h : alookup k m <;> simp [valuesOf, aggOf, h]
  | cons kv rest ih =>
      intro m k
      obtain ⟨k₁, v⟩ := kv
      rw [List.foldl_cons, ih, valuesOf_cons]
      by_cases hk : k₁ = k
      · subst hk
        rw [alookup_upsert_self]
        cases h : alookup k₁ m <;> simp [h, aggOf]
      · rw [alookup_upsert_ne (fun he => hk he.symm)]
        simp [hk]

/-- Map-side and reduce-side dict fold characterization: the combiner stored
for key `k` is `init` of `k`'s first value, folded with `step` over the
remaining values in arrival order. -/
theorem combineFold_alookup {κ V C : Type} [DecidableEq κ] (init : V → C)
    (step : C → V → C) (part : List (κ × V)) (k : κ) :
    alookup k (combineFold init step part) = aggOf init step (valuesOf k part) := by
  have h := combineFold_aux init step part [] k
  simpa [combineFold, alookup] using h

theorem alookup_cons_ne {κ C : Type} [DecidableEq κ] {k k₁ : κ} (h : k ≠ k₁)
    (v : C) (rest : List (κ × C)) :
    alookup k ((k₁, v) :: rest) = alookup k rest := by
  simp [alookup, h]

theorem mem_keysOf_iff_isSome {κ C : Type} [DecidableEq κ] (k : κ)
    (m : List (κ × C)) : k ∈ keysOf m ↔ (alookup k m).isSome := by
  induction m with
  | nil => simp [keysOf, alookup]
  | cons kc rest ih =>
      obtain ⟨k', c⟩ := kc
      by_cases h : k = k'
      · subst h; simp [keysOf, alookup]
      · simpa [keysOf, alookup, h] using ih

theorem keysOf_upsert {κ C : Type} [DecidableEq κ] (k : κ) (g : Option C → C)
    (m : List (κ × C)) :
    keysOf (upsert k g m)
      = if (alookup k m).isSome then keysOf m else keysOf m ++ [k] := by
  induction m with
  | nil => simp [keysOf, upsert, alookup]
  | cons kc rest ih =>
      obtain ⟨k', c⟩ := kc
      by_cases h : k = k'
      · subst h; simp [keysOf, upsert, alookup]
      · simp only [keysOf] at ih ⊢
        cases hs : (alookup k rest).isSome <;>
          simp [upsert, alookup, h, ih, hs]

theorem nodupKeys_upsert {κ C : Type} [DecidableEq κ] (k : κ) (g : Option C → C)
    {m : List (κ × C)} (h : (keysOf m).Nodup) :
    (keysOf (upsert k g m)).Nodup := by
  rw [keysOf_upsert]
  cases hs : (alookup k m).isSome with
  | true => simpa [hs] using h
  | false =>
      have hk : k ∉ keysOf m := by
        rw [mem_keysOf_iff_isSome, hs]; simp
      simp only [hs, Bool.false_eq_true, if_false]
      rw [List.nodup_append]
      refine ⟨h, List.nodup_singleton k, ?_⟩
      intro a ha hb
      simp only [List.mem_singleton] at hb
      exact hk (hb ▸ ha)

theorem combineFold_nodupKeys {κ V C : Type} [DecidableEq κ] (init : V → C)
    (step : C → V → C) (part : List (κ × V)) :
    (keysOf (combineFold init step part)).Nodup := by
  suffices h : ∀ (m : List (κ × C)), (keysOf m).Nodup →
      (keysOf (part.foldl
        (fun m kv =>
          upsert kv.1
            (fun oc => match oc with
              | none => init kv.2
              | some c => step c kv.2) m)
        m)).Nodup by
    exact h [] (by simp [keysOf])
  induction part with
  | nil => intro m hm; exact hm
  | cons kv rest ih =>
      intro m hm
      exact ih _ (nodupKeys_upsert kv.1 _ hm)

theorem mem_keysOf_of_mem {κ C : Type} {k : κ} {c : C} {m : List (κ × C)}
    (h : (k, c) ∈ m) : k ∈ keysOf m := by
  simp only [keysOf, List.mem_map]
  exact ⟨(k, c), h, rfl⟩

theorem mem_iff_alookup {κ C : Type} [DecidableEq κ] {m : List (κ × C)}
    (hm : (keysOf m).Nodup) (k : κ) (c : C) :
    (k, c) ∈ m ↔ alookup k m = some c := by
  induction m with
  | nil => simp [alookup]
  | cons kc rest ih =>
      obtain ⟨k', c'⟩ := kc
      have hrest : (keysOf rest).Nodup := by
        simp only [keysOf, List.map_cons, List.nodup_cons] at hm
        exact hm.2
      have hk' : k' ∉ keysOf rest := by
        simp only [keysOf, List.map_cons, List.nodup_cons] at hm
        exact hm.1
      by_cases h : k = k'
      · subst h
        have hl : alookup k ((k, c') :: rest) = some c' := by simp [alookup]
        rw [List.mem_cons, hl]
        constructor
        · rintro (he | hmem)
          · have h2 := ((Prod.mk.injEq k c k c').mp he).2
            rw [h2]
          · exact absurd (mem_keysOf_of_mem hmem) hk'
        · intro he
          have h2 : c = c' := (Option.some.inj he).symm
          exact Or.inl (by rw [h2])
      · rw [List.mem_cons, alookup_cons_ne h, ← ih hrest]
        constructor
        · rintro (he | hmem)
          · exact absurd (congrArg Prod.fst he) h
          · exact hmem
        · exact Or.inr

theorem valuesOf_eq_nil_of_not_mem {κ V : Type} [DecidableEq κ] {k : κ}
    {m : List (κ × V)} (h : k ∉ keysOf m) : valuesOf k m = [] := by
  induction m with
  | nil => simp [valuesOf]
  | cons kv rest ih =>
      obtain ⟨k₁, v⟩ := kv
      simp only [keysOf, List.map_cons, List.mem_cons] at h
      push_neg at h
      rw [valuesOf_cons, if_neg (fun he => h.1 he.symm)]
      exact ih (by simpa [keysOf] using h.2)

theorem valuesOf_of_nodup {κ V : Type} [DecidableEq κ] {m : List (κ × V)}
    (hm : (keysOf m).Nodup) (k : κ) :
    valuesOf k m = (alookup k m).toList := by
  induction m with
  | nil => simp [valuesOf, alookup]
  | cons kv rest ih =>
      obtain ⟨k₁, v⟩ := kv
      have hrest : (keysOf rest).Nodup := by
        simp only [keysOf, List.map_cons, List.nodup_cons] at hm
        exact hm.2
      have hk₁ : k₁ ∉ keysOf rest := by
        simp only [keysOf, List.map_cons, List.nodup_cons] at hm
        exact hm.1
      rw [valuesOf_cons]
      by_cases h : k₁ = k
      · subst h
        rw [if_pos rfl, valuesOf_eq_nil_of_not_mem hk₁]
        simp [alookup]
      · rw [if_neg h, ih hrest, alookup_cons_ne (fun he => h he.symm)]

theorem valuesOf_append {κ V : Type} [DecidableEq κ] (k : κ)
    (l₁ l₂ : List (κ × V)) :
    valuesOf k (l₁ ++ l₂) = valuesOf k l₁ ++ valuesOf k l₂ := by
  simp [valuesOf, List.filter_append]

theorem valuesOf_flatten {κ V : Type} [DecidableEq κ] (k : κ)
    (L : List (List (κ × V))) :
    valuesOf k L.flatten = (L.map (valuesOf k)).flatten := by
  induction L with
  | nil => simp [valuesOf]
  | cons p rest ih => simp [valuesOf_append, ih]

theorem valuesOf_filter_key {κ V : Type} [DecidableEq κ] (k : κ) (q : κ → Bool)
    (m : List (κ × V)) :
    valuesOf k (m.filter (fun kv => q kv.1))
      = if q k then valuesOf k m else [] := by
  induction m with
  | nil => simp [valuesOf]
  | cons kv rest ih =>
      obtain ⟨k₁, v⟩ := kv
      by_cases hk : k₁ = k
      · subst hk
        by_cases hq : q k₁ <;>
          simp [List.filter_cons, hq, valuesOf_cons, ih]
      · by_cases hq : q k₁ <;>
          simp [List.filter_cons, hq, valuesOf_cons, hk, ih]

theorem flatten_toList_filterMap {β C : Type} (g : β → Option C) (l : List β) :
    (l.map (fun b => (g b).toList)).flatten = l.filterMap g := by
  induction l with
  | nil => simp
  | cons b rest ih => cases hb : g b <;> simp [hb, ih]

theorem valuesOf_eq_nil_iff {κ V : Type} [DecidableEq κ] (k : κ)
    (m : List (κ × V)) : valuesOf k m = [] ↔ k ∉ keysOf m := by
  constructor
  · intro h hmem
    simp only [keysOf, List.mem_map] at hmem
    obtain ⟨⟨k', v⟩, hm, he⟩ := hmem
    have hv : v ∈ valuesOf k m := by
      simp only [valuesOf, List.mem_map]
      refine ⟨(k', v), List.mem_filter.mpr ⟨hm, ?_⟩, rfl⟩
      simpa using he
    rw [h] at hv
    exact absurd hv (List.not_mem_nil v)
  · exact valuesOf_eq_nil_of_not_mem

/-! ## Combiner protocol

`combineByKey` embeds the three-phase algorithm of `RDD.combineByKey`:
`combineLocally` (a `combineFold` with `createCombiner`/`mergeValue`) per
source partition, a `partitionBy` shuffle of the `(key, combiner)` pairs,
and `_mergeCombiners` (a `combineFold` with `mergeCombiners`) per
destination partition. -/

def combineByKey {κ V C : Type} [DecidableEq κ] (createCombiner : V → C)
    (mergeValue : C → V → C) (mergeCombiners : C → C → C)
    (hashFunc : κ → Nat) (numSplits : Nat)
    (parts : List (List (κ × V))) : List (List (κ × C)) :=
  (partitionByParts hashFunc numSplits
      (parts.map (combineFold createCombiner mergeValue))).map
    (combineFold id mergeCombiners)

theorem merged_alookup {κ C : Type} [DecidableEq κ] (mc : C → C → C)
    (hashF : κ → Nat) (n : Nat) (locals : List (List (κ × C)))
    (hnodup : ∀ p ∈ locals, (keysOf p).Nodup) (d : Nat) (k : κ) :
    alookup k (combineFold id mc
      ((locals.map (fun p => add_shuffle_key hashF n p d)).flatten))
    = if hashF k % n = d then aggOf id mc (locals.filterMap (alookup k))
      else none := by
  rw [combineFold_alookup, valuesOf_flatten]
  have hbuckets : locals.map (fun p => valuesOf k (add_shuffle_key hashF n p d))
      = locals.map (fun p =>
          if hashF k % n = d then (alookup k p).toList else []) := by
    apply List.map_congr_left
    intro p hp
    rw [add_shuffle_key_eq_filter]
    have h := valuesOf_filter_key k (fun k' => decide (hashF k' % n = d)) p
    rw [h, valuesOf_of_nodup (hnodup p hp)]
    by_cases hc : hashF k % n = d <;> simp [hc]
  rw [List.map_map]
  show aggOf id mc ((locals.map
    (fun p => valuesOf k (add_shuffle_key hashF n p d))).flatten) = _
  rw [hbuckets]
  by_cases hc : hashF k % n = d
  · simp only [hc, if_true]
    rw [flatten_toList_filterMap]
  · simp [hc, aggOf]

/-- Destination partition `d` of `combineByKey`, after the reduce-side
combine: a named subterm of `combineByKey` for the proofs below. -/
def mergedDest {κ V C : Type} [DecidableEq κ] (createCombiner : V → C)
    (mergeValue : C → V → C) (mergeCombiners : C → C → C)
    (hashFunc : κ → Nat) (numSplits : Nat) (parts : List (List (κ × V)))
    (d : Nat) : List (κ × C) :=
  combineFold id mergeCombiners
    (((parts.map (combineFold createCombiner mergeValue)).map
        (fun p => add_shuffle_key hashFunc numSplits p d)).flatten)

/-- Final combined value `combineByKey` associates with key `k`: the
map-side combiners contributed by each source partition holding `k`, folded
with `mergeCombiners` in source index order. -/
def cbkValue {κ V C : Type} [DecidableEq κ] (createCombiner : V → C)
    (mergeValue : C → V → C) (mergeCombiners : C → C → C)
    (parts : List (List (κ × V))) (k : κ) : Option C :=
  aggOf id mergeCombiners
    (parts.filterMap (fun p => alookup k (combineFold createCombiner mergeValue p)))

theorem combineByKey_eq_map_range {κ V C : Type} [DecidableEq κ]
    (create : V → C) (mv : C → V → C) (mc : C → C → C) (hashF : κ → Nat)
    (n : Nat) (parts : List (List (κ × V))) :
    combineByKey create mv mc hashF n parts
      = (List.range n).map (mergedDest create mv mc hashF n parts) := by
  simp [combineByKey, partitionByParts, mergedDest, List.map_map]

theorem mergedDest_alookup {κ V C : Type} [DecidableEq κ]
    (create : V → C) (mv : C → V → C) (mc : C → C → C) (hashF : κ → Nat)
    (n : Nat) (parts : List (List (κ × V))) (d : Nat) (k : κ) :
    alookup k (mergedDest create mv mc hashF n parts d)
      = if hashF k % n = d then cbkValue create mv mc parts k else none := by
  rw [mergedDest,
    merged_alookup mc hashF n (parts.map (combineFold create mv))
      (by intro p hp
          obtain ⟨q, _, rfl⟩ := List.mem_map.mp hp
          exact combineFold_nodupKeys create mv q) d k]
  rw [cbkValue, List.filterMap_map]
  rfl

theorem mergedDest_nodupKeys {κ V C : Type} [DecidableEq κ]
    (create : V → C) (mv : C → V → C) (mc : C → C → C) (hashF : κ → Nat)
    (n : Nat) (parts : List (List (κ × V))) (d : Nat) :
    (keysOf (mergedDest create mv mc hashF n parts d)).Nodup :=
  combineFold_nodupKeys id mc _

theorem aggOf_isSome_iff {V C : Type} (init : V → C) (step : C → V → C)
    (l : List V) : (aggOf init step l).isSome ↔ l ≠ [] := by
  cases l <;> simp [aggOf]

theorem mem_map_fst_iff {κ C : Type} (k : κ) (l : List (κ × C)) :
    k ∈ l.map Prod.fst ↔ ∃ c, (k, c) ∈ l := by
  rw [List.mem_map]
  constructor
  · rintro ⟨⟨k', c⟩, hmem, rfl⟩
    exact ⟨c, hmem⟩
  · rintro ⟨c, hc⟩
    exact ⟨(k, c), hc, rfl⟩

theorem mem_keys_flatten_iff {κ C : Type} (k : κ) (parts : List (List (κ × C))) :
    k ∈ parts.flatten.map Prod.fst ↔ ∃ p ∈ parts, k ∈ keysOf p := by
  rw [mem_map_fst_iff]
  constructor
  · rintro ⟨c, hc⟩
    obtain ⟨p, hp, hmem⟩ := List.mem_flatten.mp hc
    exact ⟨p, hp, mem_keysOf_of_mem hmem⟩
  · rintro ⟨p, hp, hk⟩
    obtain ⟨c, hc⟩ := (mem_map_fst_iff k p).mp hk
    exact ⟨c, List.mem_flatten.mpr ⟨p, hp, hc⟩⟩

theorem cbkValue_isSome_iff {κ V C : Type} [DecidableEq κ]
    (create : V → C) (mv : C → V → C) (mc : C → C → C)
    (parts : List (List (κ × V))) (k : κ) :
    (cbkValue create mv mc parts k).isSome ↔ ∃ p ∈ parts, k ∈ keysOf p := by
  rw [cbkValue, aggOf_isSome_iff]
  constructor
  · intro h
    by_contra hno
    push_neg at hno
    apply h
    rw [List.filterMap_eq_nil_iff]
    intro p hp
    rw [combineFold_alookup, valuesOf_eq_nil_of_not_mem (hno p hp)]
    rfl
  · rintro ⟨p, hp, hk⟩
    intro hnil
    rw [List.filterMap_eq_nil_iff] at hnil
    have hnone := hnil p hp
    rw [combineFold_alookup] at hnone
    have hne : valuesOf k p ≠ [] := fun h2 => (valuesOf_eq_nil_iff k p).mp h2 hk
    cases hv : valuesOf k p with
    | nil => exact hne hv
    | cons a l => rw [hv] at hnone; exact Option.noConfusion hnone

/-- Membership characterization of `combineByKey`: for a positive partition
count, `(k, c)` appears in the result exactly when `c` is the
`mergeCombiners` fold of `k`'s per-source-partition combiners. -/
theorem combineByKey_mem_iff {κ V C : Type} [DecidableEq κ]
    (create : V → C) (mv : C → V → C) (mc : C → C → C) (hashF : κ → Nat)
    {n : Nat} (hn : 0 < n) (parts : List (List (κ × V))) (k : κ) (c : C) :
    (k, c) ∈ (combineByKey create mv mc hashF n parts).flatten
      ↔ cbkValue create mv mc parts k = some c := by
  rw [combineByKey_eq_map_range, List.mem_flatten]
  constructor
  · rintro ⟨l, hl, hmem⟩
    obtain ⟨d, _, rfl⟩ := List.mem_map.mp hl
    have h := (mem_iff_alookup (mergedDest_nodupKeys create mv mc hashF n parts d)
      k c).mp hmem
    rw [mergedDest_alookup] at h
    by_cases hc : hashF k % n = d
    · rwa [if_pos hc] at h
    · rw [if_neg hc] at h
      exact Option.noConfusion h
  · intro hR
    refine ⟨mergedDest create mv mc hashF n parts (hashF k % n),
      List.mem_map.mpr ⟨hashF k % n, List.mem_range.mpr (Nat.mod_lt _ hn), rfl⟩, ?_⟩
    rw [mem_iff_alookup (mergedDest_nodupKeys create mv mc hashF n parts _),
      mergedDest_alookup, if_pos rfl]
    exact hR

theorem mem_keysOf_mergedDest {κ V C : Type} [DecidableEq κ]
    (create : V → C) (mv : C → V → C) (mc : C → C → C) (hashF : κ → Nat)
    (n : Nat) (parts : List (List (κ × V))) (d : Nat) (k : κ) :
    k ∈ keysOf (mergedDest create mv mc hashF n parts d)
      ↔ hashF k % n = d ∧ (cbkValue create mv mc parts k).isSome := by
  rw [mem_keysOf_iff_isSome, mergedDest_alookup]
  by_cases hc : hashF k % n = d <;> simp [hc]

/-- The keys of the `combineByKey` output are pairwise distinct: one
`(key, C)` pair per distinct key across the whole dataset. -/
theorem combineByKey_keys_nodup {κ V C : Type} [DecidableEq κ]
    (create : V → C) (mv : C → V → C) (mc : C → C → C) (hashF : κ → Nat)
    (n : Nat) (parts : List (List (κ × V))) :
    ((combineByKey create mv mc hashF n parts).flatten.map Prod.fst).Nodup := by
  rw [combineByKey_eq_map_range, List.map_flatten, List.map_map,
    List.nodup_flatten]
  constructor
  · intro l hl
    obtain ⟨d, _, rfl⟩ := List.mem_map.mp hl
    exact mergedDest_nodupKeys create mv mc hashF n parts d
  · rw [List.pairwise_map]
    refine (List.pairwise_lt_range n).imp ?_
    intro d₁ d₂ hlt
    rw [List.disjoint_left]
    intro k hk₁ hk₂
    have h₁ := (mem_keysOf_mergedDest create mv mc hashF n parts d₁ k).mp hk₁
    have h₂ := (mem_keysOf_mergedDest create mv mc hashF n parts d₂ k).mp hk₂
    exact absurd (h₁.1.symm.trans h₂.1) (Nat.ne_of_lt hlt)

/-- The key set of the `combineByKey` output equals the key set of the
input dataset. -/
theorem combineByKey_keys_iff {κ V C : Type} [DecidableEq κ]
    (create : V → C) (mv : C → V → C) (mc : C → C → C) (hashF : κ → Nat)
    {n : Nat} (hn : 0 < n) (parts : List (List (κ × V))) (k : κ) :
    k ∈ (combineByKey create mv mc hashF n parts).flatten.map Prod.fst
      ↔ k ∈ parts.flatten.map Prod.fst := by
  rw [mem_map_fst_iff, mem_keys_flatten_iff]
  constructor
  · rintro ⟨c, hc⟩
    have hv := (combineByKey_mem_iff create mv mc hashF hn parts k c).mp hc
    have hs : (cbkValue create mv mc parts k).isSome = true := by
      rw [hv]; rfl
    exact (cbkValue_isSome_iff create mv mc parts k).mp hs
  · intro h
    have hs := (cbkValue_isSome_iff create mv mc parts k).mpr h
    obtain ⟨c, hc⟩ := Option.isSome_iff_exists.mp hs
    exact ⟨c, (combineByKey_mem_iff create mv mc hashF hn parts k c).mpr hc⟩

/-- C2: `combineByKey` performs a map-side combine within each source
partition (`createCombiner` on a key's first occurrence, `mergeValue` on
each subsequent occurrence in arrival order), shuffles the resulting
`(key, combiner)` pairs, and folds same-key combiners at the destination
with `mergeCombiners`, producing exactly one `(key, C)` pair per distinct
key of the dataset; for associative, order-independent `mergeCombiners`
the set of result pairs is independent of the partition count used. -/
theorem combineByKey_combine_protocol {κ V C : Type} [DecidableEq κ]
    (create : V → C) (mv : C → V → C) (mc : C → C → C) (hashF : κ → Nat)
    (parts : List (List (κ × V))) :
    (∀ (part : List (κ × V)) (k : κ),
        alookup k (combineFold create mv part) = aggOf create mv (valuesOf k part))
    ∧ (∀ n, 0 < n →
        ((combineByKey create mv mc hashF n parts).flatten.map Prod.fst).Nodup
        ∧ ∀ k, (k ∈ (combineByKey create mv mc hashF n parts).flatten.map Prod.fst
                ↔ k ∈ parts.flatten.map Prod.fst))
    ∧ ((∀ a b c, mc (mc a b) c = mc a (mc b c)) → (∀ a b, mc a b = mc b a) →
        ∀ n₁ n₂, 0 < n₁ → 0 < n₂ → ∀ x,
          x ∈ (combineByKey create mv mc hashF n₁ parts).flatten
          ↔ x ∈ (combineByKey create mv mc hashF n₂ parts).flatten) := by
  refine ⟨combineFold_alookup create mv, ?_, ?_⟩
  · intro n hn
    exact ⟨combineByKey_keys_nodup create mv mc hashF n parts,
      fun k => combineByKey_keys_iff create mv mc hashF hn parts k⟩
  · intro _ _ n₁ n₂ h₁ h₂ x
    obtain ⟨k, c⟩ := x
    rw [combineByKey_mem_iff create mv mc hashF h₁ parts k c,
      combineByKey_mem_iff create mv mc hashF h₂ parts k c]

/-- C2 witness at a concrete dataset: with sum combiners over
`[[(1,2),(1,3)],[(2,5)]]`, the output keys are distinct and the result set
with 2 output partitions agrees with the result set with 3. -/
theorem combineByKey_combine_protocol_witness :
    ((combineByKey (fun v : Nat => v) (fun c v => c + v) (fun a b => a + b)
        (fun k => k) 2 [[(1, 2), (1, 3)], [(2, 5)]]).flatten.map Prod.fst).Nodup
    ∧ (((1 : Nat), (5 : Nat)) ∈ (combineByKey (fun v : Nat => v)
          (fun c v => c + v) (fun a b => a + b) (fun k => k) 2
          [[(1, 2), (1, 3)], [(2, 5)]]).flatten
        ↔ ((1 : Nat), (5 : Nat)) ∈ (combineByKey (fun v : Nat => v)
          (fun c v => c + v) (fun a b => a + b) (fun k => k) 3
          [[(1, 2), (1, 3)], [(2, 5)]]).flatten) := by
  have h := combineByKey_combine_protocol (fun v : Nat => v) (fun c v => c + v)
    (fun a b => a + b) (fun k => k) [[(1, 2), (1, 3)], [(2, 5)]]
  exact ⟨(h.2.1 2 (by decide)).1,
    h.2.2 (fun a b c => Nat.add_assoc a b c) (fun a b => Nat.add_comm a b)
      2 3 (by decide) (by decide) (1, 5)⟩

/-- C3: the local bucketing pass of `partitionBy` places each record
`(k, v)` in bucket `hashFunc(k) % numSplits` — so the destination is a
deterministic function of the key alone, all records sharing a key land in
the same bucket, and every bucket holds its records in source arrival
order (it is the arrival-order subsequence of records hashing to it). -/
theorem partitionBy_bucketing {κ V : Type} (hashFunc : κ → Nat) (n : Nat)
    (part : List (κ × V)) (d : Nat) (kv : κ × V) :
    (add_shuffle_key hashFunc n part d
        = part.filter (fun kv => decide (hashFunc kv.1 % n = d)))
    ∧ (kv ∈ part → kv ∈ add_shuffle_key hashFunc n part (hashFunc kv.1 % n))
    ∧ (kv ∈ add_shuffle_key hashFunc n part d → hashFunc kv.1 % n = d) := by
  refine ⟨add_shuffle_key_eq_filter hashFunc n part d, ?_, ?_⟩
  · intro h
    rw [add_shuffle_key_eq_filter]
    exact List.mem_filter.mpr ⟨h, by simp⟩
  · intro h
    rw [add_shuffle_key_eq_filter] at h
    have h2 := (List.mem_filter.mp h).2
    simpa using h2

/-- C3 witness: record `(3, 10)` of a concrete partition is found in the
bucket `3 % 2` computed by the local bucketing pass. -/
theorem partitionBy_bucketing_witness :
    ((3 : Nat), (10 : Nat)) ∈
      add_shuffle_key (fun k => k) 2 [(3, 10), (4, 11)] (3 % 2) :=
  (partitionBy_bucketing (fun k => k) 2 [(3, 10), (4, 11)] (3 % 2)
    (3, 10)).2.1 (by decide)

/-! ## reduce and fold

`RDD.reduce(f)` runs a per-partition fold that seeds the accumulator with
the first element and then sets `acc = f(obj, acc)` (element first), yields
the accumulator only for non-empty partitions, collects those values and
reduces them with Python's builtin `reduce(f, vals)` — which folds
`f(acc, val)` (accumulator first) and raises on an empty sequence, embedded
here as `none`.  `RDD.fold(zeroValue, op)` seeds every partition with
`zeroValue`, folds `acc = op(obj, acc)`, always yields, and finishes with
`reduce(op, vals, zeroValue)`, which never errors. -/

def partitionReduce {α : Type} (f : α → α → α) (part : List α) : Option α :=
  part.foldl
    (fun acc obj => match acc with
      | none => some obj
      | some a => some (f obj a))
    none

/-- Python's builtin `reduce(f, vals)` with no initializer: `none` embeds
the `TypeError` raised on an empty sequence. -/
def pythonReduce {α : Type} (f : α → α → α) : List α → Option α
  | [] => none
  | v :: vs => some (vs.foldl f v)

def RDD.reduce {α : Type} (f : α → α → α) (parts : List (List α)) : Option α :=
  pythonReduce f (parts.filterMap (partitionReduce f))

def partitionFold {α : Type} (zeroValue : α) (op : α → α → α)
    (part : List α) : α :=
  part.foldl (fun acc obj => op obj acc) zeroValue

def RDD.fold {α : Type} (zeroValue : α) (op : α → α → α)
    (parts : List (List α)) : α :=
  (parts.map (partitionFold zeroValue op)).foldl op zeroValue

theorem partitionReduce_cons {α : Type} (f : α → α → α) (x : α) (xs : List α) :
    partitionReduce f (x :: xs)
      = some (xs.foldl (fun acc obj => f obj acc) x) := by
  show (xs.foldl
    (fun acc obj => match acc with
      | none => some obj
      | some a => some (f obj a))
    (some x)) = some (xs.foldl (fun acc obj => f obj acc) x)
  induction xs generalizing x with
  | nil => rfl
  | cons y ys ih => exact ih (f y x)

theorem foldl_flip_comm {α : Type} (f : α → α → α)
    (hcomm : ∀ a b, f a b = f b a) (xs : List α) :
    ∀ x, xs.foldl (fun acc obj => f obj acc) x = xs.foldl f x := by
  induction xs with
  | nil => intro x; rfl
  | cons y ys ih =>
      intro x
      show ys.foldl (fun acc obj => f obj acc) (f y x) = ys.foldl f (f x y)
      rw [hcomm y x]
      exact ih (f x y)

theorem foldl_assoc_head {α : Type} (f : α → α → α)
    (hassoc : ∀ a b c, f (f a b) c = f a (f b c)) (l : List α) :
    ∀ a b, l.foldl f (f a b) = f a (l.foldl f b) := by
  induction l with
  | nil => intro a b; rfl
  | cons c cs ih =>
      intro a b
      show cs.foldl f (f (f a b) c) = f a (cs.foldl f (f b c))
      rw [hassoc a b c]
      exact ih a (f b c)

/-- Cross-partition combination of two optional accumulators, skipping
absent (empty-partition) contributions. -/
def optCombine {α : Type} (f : α → α → α) : Option α → Option α → Option α
  | none, b => b
  | some a, none => some a
  | some a, some b => some (f a b)

theorem pythonReduce_cons {α : Type} (f : α → α → α)
    (hassoc : ∀ a b c, f (f a b) c = f a (f b c)) (a : α) (l : List α) :
    pythonReduce f (a :: l) = optCombine f (some a) (pythonReduce f l) := by
  cases l with
  | nil => rfl
  | cons b bs =>
      show some ((b :: bs).foldl f a) = some (f a (bs.foldl f b))
      rw [List.foldl_cons, foldl_assoc_head f hassoc]

theorem partitionReduce_eq_pythonReduce {α : Type} (f : α → α → α)
    (hcomm : ∀ a b, f a b = f b a) (l : List α) :
    partitionReduce f l = pythonReduce f l := by
  cases l with
  | nil => rfl
  | cons x xs =>
      rw [partitionReduce_cons, pythonReduce, foldl_flip_comm f hcomm]

theorem pythonReduce_append {α : Type} (f : α → α → α)
    (hassoc : ∀ a b c, f (f a b) c = f a (f b c)) (l₁ l₂ : List α) :
    pythonReduce f (l₁ ++ l₂)
      = optCombine f (pythonReduce f l₁) (pythonReduce f l₂) := by
  cases l₁ with
  | nil =>
      show pythonReduce f l₂ = optCombine f (pythonReduce f []) (pythonReduce f l₂)
      cases pythonReduce f l₂ <;> rfl
  | cons x xs =>
      cases l₂ with
      | nil => simp [pythonReduce, optCombine]
      | cons y ys =>
          show some ((xs ++ y :: ys).foldl f x)
            = optCombine f (some (xs.foldl f x)) (some (ys.foldl f y))
          rw [List.foldl_append, List.foldl_cons, foldl_assoc_head f hassoc]
          rfl

theorem reduce_eq_pythonReduce_flatten {α : Type} (f : α → α → α)
    (hassoc : ∀ a b c, f (f a b) c = f a (f b c))
    (hcomm : ∀ a b, f a b = f b a) (parts : List (List α)) :
    RDD.reduce f parts = pythonReduce f parts.flatten := by
  rw [RDD.reduce]
  induction parts with
  | nil => rfl
  | cons p ps ih =>
      rw [List.flatten_cons, pythonReduce_append f hassoc, ← ih,
        List.filterMap_cons]
      have hp2 := partitionReduce_eq_pythonReduce f hcomm p
      cases hp : partitionReduce f p with
      | none =>
          rw [hp] at hp2
          rw [← hp2]
          rfl
      | some a =>
          rw [hp] at hp2
          rw [← hp2]
          exact pythonReduce_cons f hassoc a _

theorem foldl_replicate_self {α : Type} (op : α → α → α) (z : α)
    (hz : op z z = z) : ∀ n, (List.replicate n z).foldl op z = z := by
  intro n
  induction n with
  | zero => rfl
  | succ m ih => rw [List.replicate_succ, List.foldl_cons, hz]; exact ih

/-- C10: the per-partition fold of `reduce` applies `f` with the element
first and the accumulator second (`acc = f(obj, acc)`), while the
cross-partition builtin `reduce(f, vals)` applies the accumulator first
(`f(acc, val)`); for an associative and commutative `f` and a non-empty
dataset, `reduce(f)` consequently equals the left fold of `f` over all of
the dataset's elements. -/
theorem reduce_argument_order {α : Type} (f : α → α → α)
    (parts : List (List α)) :
    (∀ (x : α) (xs : List α),
        partitionReduce f (x :: xs)
          = some (xs.foldl (fun acc obj => f obj acc) x))
    ∧ (∀ (v : α) (vs : List α), pythonReduce f (v :: vs) = some (vs.foldl f v))
    ∧ ((∀ a b c, f (f a b) c = f a (f b c)) → (∀ a b, f a b = f b a) →
        ∀ (x : α) (xs : List α), parts.flatten = x :: xs →
          RDD.reduce f parts = some (xs.foldl f x)) := by
  refine ⟨partitionReduce_cons f, fun v vs => rfl, ?_⟩
  intro hassoc hcomm x xs hflat
  rw [reduce_eq_pythonReduce_flatten f hassoc hcomm, hflat]
  rfl

/-- C10 witness: `reduce` over the concrete dataset `[[1,2],[3]]` with
addition equals the left fold `6` of all elements. -/
theorem reduce_argument_order_witness :
    RDD.reduce Nat.add [[1, 2], [3]] = some 6 := by
  have h := (reduce_argument_order Nat.add [[1, 2], [3]]).2.2
    (fun a b c => Nat.add_assoc a b c) (fun a b => Nat.add_comm a b)
    1 [2, 3] rfl
  exact h.trans (by decide)

/-- C5: `reduce(f)` over a dataset with zero elements yields the
empty-sequence error (embedded as `none`) rather than any sentinel value,
while `fold(zeroValue, op)` is total and returns `zeroValue` on a dataset
with zero elements (for a neutral zero, `op zeroValue zeroValue =
zeroValue`). -/
theorem reduce_empty_fold_zero {α : Type} (f : α → α → α) (zeroValue : α)
    (op : α → α → α) (parts : List (List α)) :
    (parts.flatten = [] → RDD.reduce f parts = none)
    ∧ (op zeroValue zeroValue = zeroValue → parts.flatten = [] →
        RDD.fold zeroValue op parts = zeroValue) := by
  constructor
  · intro h
    have hall := List.flatten_eq_nil_iff.mp h
    rw [RDD.reduce]
    have hnil : parts.filterMap (partitionReduce f) = [] := by
      rw [List.filterMap_eq_nil_iff]
      intro p hp
      rw [hall p hp]
      rfl
    rw [hnil]
    rfl
  · intro hz h
    have hall := List.flatten_eq_nil_iff.mp h
    rw [RDD.fold]
    have hmap : parts.map (partitionFold zeroValue op)
        = parts.map (fun _ => zeroValue) := by
      apply List.map_congr_left
      intro p hp
      rw [hall p hp]
      rfl
    rw [hmap, List.map_const']
    exact foldl_replicate_self op zeroValue hz parts.length

/-- C5 witness: over the empty dataset split into two empty partitions,
`reduce` with addition errors (`none`) and `fold 0 (+)` returns `0`. -/
theorem reduce_empty_fold_zero_witness :
    RDD.reduce Nat.add [[], []] = none ∧ RDD.fold 0 Nat.add [[], []] = 0 := by
  have h := reduce_empty_fold_zero Nat.add 0 Nat.add ([[], []] : List (List Nat))
  exact ⟨h.1 rfl, h.2 rfl rfl⟩

/-! ## Collector: collect and take

`RDD.collect` concatenates every partition's elements in partition-index
order.  `RDD.take(num)` loops over partitions in index order, extending an
item buffer with each fetched partition and breaking as soon as
`len(items) >= num`, finally returning `items[:num]`.  `scannedCount`
counts how many partitions that loop fetches. -/

def RDD.collect {α : Type} (parts : List (List α)) : List α := parts.flatten

def takeItems {α : Type} (num : Nat) : List (List α) → List α → List α
  | [], items => items
  | p :: ps, items =>
      if num ≤ (items ++ p).length then items ++ p
      else takeItems num ps (items ++ p)

def RDD.take {α : Type} (num : Nat) (parts : List (List α)) : List α :=
  (takeItems num parts []).take num

def scannedCount {α : Type} (num : Nat) : List (List α) → List α → Nat
  | [], _ => 0
  | p :: ps, items =>
      if num ≤ (items ++ p).length then 1
      else scannedCount num ps (items ++ p) + 1

theorem takeItems_eq_flatten_take {α : Type} (num : Nat)
    (parts : List (List α)) :
    ∀ items, takeItems num parts items
      = items ++ (parts.take (scannedCount num parts items)).flatten := by
  induction parts with
  | nil => intro items; simp [takeItems, scannedCount]
  | cons p ps ih =>
      intro items
      by_cases h : num ≤ (items ++ p).length
      · simp only [takeItems, scannedCount]
        rw [if_pos h, if_pos h]
        simp
      · simp only [takeItems, scannedCount]
        rw [if_neg h, if_neg h]
        rw [ih (items ++ p), List.take_succ_cons, List.flatten_cons,
          List.append_assoc]

theorem takeItems_length_ge {α : Type} (num : Nat) (parts : List (List α)) :
    ∀ items, min num (items ++ parts.flatten).length
      ≤ (takeItems num parts items).length := by
  induction parts with
  | nil =>
      intro items
      simp only [takeItems, List.flatten_nil, List.append_nil]
      exact Nat.min_le_right _ _
  | cons p ps ih =>
      intro items
      by_cases h : num ≤ (items ++ p).length
      · simp only [takeItems, h, if_true]
        exact le_trans (Nat.min_le_left _ _) h
      · simp only [takeItems, h, if_false]
        have h2 := ih (items ++ p)
        rw [List.flatten_cons, ← List.append_assoc]
        exact h2

theorem scannedCount_le_of_enough {α : Type} (num : Nat)
    (parts : List (List α)) :
    ∀ (items : List α) (j : Nat), 1 ≤ j →
      num ≤ (items ++ (parts.take j).flatten).length →
      scannedCount num parts items ≤ j := by
  induction parts with
  | nil => intro items j _ _; exact Nat.zero_le j
  | cons p ps ih =>
      intro items j hj hlen
      by_cases h : num ≤ (items ++ p).length
      · simp only [scannedCount, h, if_true]
        exact hj
      · simp only [scannedCount, h, if_false]
        cases j with
        | zero => exact absurd hj (by decide)
        | succ j' =>
            cases j' with
            | zero =>
                exfalso
                apply h
                simpa using hlen
            | succ j'' =>
                have hlen2 : num ≤
                    ((items ++ p) ++ (ps.take (j'' + 1)).flatten).length := by
                  rw [List.take_succ_cons, List.flatten_cons,
                    ← List.append_assoc] at hlen
                  exact hlen
                have h3 := ih (items ++ p) (j'' + 1)
                  (Nat.succ_le_succ (Nat.zero_le _)) hlen2
                omega

theorem scannedCount_min {α : Type} (num : Nat) (parts : List (List α)) :
    ∀ (items : List α) (j : Nat), 1 ≤ j →
      j < scannedCount num parts items →
      (items ++ (parts.take j).flatten).length < num := by
  induction parts with
  | nil =>
      intro items j _ hlt
      exact absurd hlt (by simp [scannedCount])
  | cons p ps ih =>
      intro items j hj hlt
      by_cases h : num ≤ (items ++ p).length
      · simp only [scannedCount, h, if_true] at hlt
        omega
      · simp only [scannedCount, h, if_false] at hlt
        cases j with
        | zero => exact absurd hj (by decide)
        | succ j' =>
            cases j' with
            | zero =>
                simpa using Nat.lt_of_not_le h
            | succ j'' =>
                have h2 := ih (items ++ p) (j'' + 1)
                  (Nat.succ_le_succ (Nat.zero_le _)) (by omega)
                rw [List.take_succ_cons, List.flatten_cons,
                  ← List.append_assoc]
                exact h2

theorem scannedCount_le_length {α : Type} (num : Nat)
    (parts : List (List α)) :
    ∀ items, scannedCount num parts items ≤ parts.length := by
  induction parts with
  | nil => intro items; simp [scannedCount]
  | cons p ps ih =>
      intro items
      by_cases h : num ≤ (items ++ p).length
      · simp only [scannedCount, h, if_true, List.length_cons]
        omega
      · simp only [scannedCount, h, if_false, List.length_cons]
        have h2 := ih (items ++ p)
        omega

/-- C6: `take(num)` equals the first `num` elements of `collect()` (hence
equals `collect()` itself once `num` reaches the total count); the
partition scan is sequential in index order and minimal: it fetches no
partition past the first index whose accumulated element count reaches
`num`, every fetched position short of the stopping one was still short of
`num` elements, and it never fetches past the last partition. -/
theorem take_matches_collect {α : Type} (num : Nat) (parts : List (List α)) :
    (RDD.take num parts = (RDD.collect parts).take num)
    ∧ ((RDD.collect parts).length ≤ num → RDD.take num parts = RDD.collect parts)
    ∧ (∀ j, 1 ≤ j → num ≤ ((parts.take j).flatten).length →
        scannedCount num parts [] ≤ j)
    ∧ (∀ j, 1 ≤ j → j < scannedCount num parts [] →
        ((parts.take j).flatten).length < num)
    ∧ scannedCount num parts [] ≤ parts.length := by
  have hmain : RDD.take num parts = (RDD.collect parts).take num := by
    rw [RDD.take, RDD.collect, takeItems_eq_flatten_take, List.nil_append]
    have hsplit : parts.flatten
        = (parts.take (scannedCount num parts [])).flatten
          ++ (parts.drop (scannedCount num parts [])).flatten := by
      rw [← List.flatten_append, List.take_append_drop]
    by_cases hc : num ≤ ((parts.take (scannedCount num parts [])).flatten).length
    · rw [hsplit, List.take_append_of_le_length hc]
    · have hlb := takeItems_length_ge num parts []
      rw [takeItems_eq_flatten_take, List.nil_append, List.nil_append] at hlb
      have hlt : ((parts.take (scannedCount num parts [])).flatten).length < num :=
        Nat.lt_of_not_le hc
      have hflat_lt : parts.flatten.length < num := by
        by_cases hnf : num ≤ parts.flatten.length
        · exfalso
          rw [Nat.min_eq_left hnf] at hlb
          omega
        · exact Nat.lt_of_not_le hnf
      rw [Nat.min_eq_right (Nat.le_of_lt hflat_lt)] at hlb
      have hlen_eq : parts.flatten.length
          = ((parts.take (scannedCount num parts [])).flatten).length
            + ((parts.drop (scannedCount num parts [])).flatten).length := by
        conv =>
          lhs
          rw [hsplit]
        rw [List.length_append]
      have hdropnil : (parts.drop (scannedCount num parts [])).flatten = [] :=
        List.eq_nil_of_length_eq_zero (by omega)
      rw [hsplit, hdropnil, List.append_nil]
  refine ⟨hmain, ?_, ?_, ?_, scannedCount_le_length num parts []⟩
  · intro hle
    rw [hmain]
    exact List.take_of_length_le hle
  · intro j hj hlen
    exact scannedCount_le_of_enough num parts [] j hj (by simpa using hlen)
  · intro j hj hlt
    have h2 := scannedCount_min num parts [] j hj hlt
    simpa using h2

/-- C6 witness on `[[1,2],[3,4],[5]]` with `num = 3`: `take` returns the
first three collected elements and the scan stops after two partitions. -/
theorem take_matches_collect_witness :
    RDD.take 3 [[1, 2], [3, 4], [5]] = [1, 2, 3]
    ∧ scannedCount 3 [[1, 2], [3, 4], [5]] ([] : List Nat) ≤ 2 := by
  have h := take_matches_collect 3 [[1, 2], [3, 4], [5]]
  exact ⟨h.1.trans (by decide), h.2.2.1 2 (by decide) (by decide)⟩

/-! ## Staged bulk-transfer cleanup in collect

`RDD._collect_iterator_through_file` creates a named temporary file,
registers an `atexit` hook `clean_up_file` (whose unlink attempt swallows
every failure), writes the partition data to the file, and then yields the
items back from it inside a generator; after the final item the generator
runs a bare `os.unlink(tempFile.name)`.  Two facts of the source control
the cleanup outcomes: that trailing `os.unlink` is not wrapped in any
handler, and it is never reached when the consumer abandons the iteration
early (generator close or an exception mid-iteration), in which case only
the exit hook remains to remove the file at interpreter exit.  The record
below captures one run: the items handed to the consumer, whether the
staging file still exists when the call finishes, whether an error escaped
to the caller, and whether the exit hook was registered. -/

structure CollectRun (α : Type) where
  delivered : List α
  fileRemains : Bool
  errorEscaped : Bool
  exitHookRegistered : Bool

/-- Embedding of one run of `_collect_iterator_through_file` over `items`:
`abortAfter = some j` (with `j < items.length`) models the consumer
abandoning the result iteration after `j` delivered items; `none` (or an
out-of-range `j`) is full consumption.  `unlinkSucceeds` tells whether the
trailing `os.unlink` would succeed. -/
def collectThroughFile {α : Type} (items : List α) (abortAfter : Option Nat)
    (unlinkSucceeds : Bool) : CollectRun α :=
  match abortAfter with
  | some j =>
      if j < items.length then
        ⟨items.take j, true, false, true⟩
      else
        ⟨items, !unlinkSucceeds, !unlinkSucceeds, true⟩
  | none => ⟨items, !unlinkSucceeds, !unlinkSucceeds, true⟩

/-- Embedding of the registered `clean_up_file` exit hook: try to unlink,
swallow every failure.  Result: (file still exists afterwards, error
escaped the hook). -/
def clean_up_file (fileRemains : Bool) (unlinkSucceeds : Bool) : Bool × Bool :=
  (fileRemains && !unlinkSucceeds, false)

/-- C4 counterexample: on early abort of the result iteration the staging
file still exists when the call returns (it is not removed at completion),
and on the normal path a failed removal raises out of a run that has
already delivered all of its data — so the removal is neither
unconditional at completion nor failure-swallowing. -/
theorem collect_cleanup_counterexample :
    (collectThroughFile ([0] : List Nat) (some 0) true).fileRemains = true
    ∧ (collectThroughFile ([0] : List Nat) none false).errorEscaped = true
    ∧ (collectThroughFile ([0] : List Nat) none false).delivered = [0] :=
  ⟨rfl, rfl, rfl⟩

/-- C4 amended: on normal completion with a successful removal the staging
file is gone when `collect` returns and no error escapes; a failed removal
on the normal path, however, propagates even though the data was already
delivered; on early abort the file survives the call itself but the exit
hook registered beforehand removes it at interpreter exit, and that hook
swallows removal failures — so no staging file outlives the process. -/
theorem collect_cleanup_amended {α : Type} (items : List α) (j : Nat)
    (unlinkOk : Bool) :
    ((collectThroughFile items none true).fileRemains = false
      ∧ (collectThroughFile items none true).errorEscaped = false
      ∧ (collectThroughFile items none true).delivered = items)
    ∧ (j < items.length →
        (collectThroughFile items (some j) unlinkOk).fileRemains = true
        ∧ (collectThroughFile items (some j) unlinkOk).errorEscaped = false
        ∧ (collectThroughFile items (some j) unlinkOk).delivered = items.take j
        ∧ (collectThroughFile items (some j) unlinkOk).exitHookRegistered = true)
    ∧ (∀ fr : Bool, (clean_up_file fr true).1 = false)
    ∧ (∀ fr ok : Bool, (clean_up_file fr ok).2 = false) := by
  refine ⟨⟨rfl, rfl, rfl⟩, ?_, ?_, fun fr ok => rfl⟩
  · intro hj
    simp [collectThroughFile, hj]
  · intro fr
    simp [clean_up_file]

/-- C4 amended witness: a concrete aborted run leaves the file for the exit
hook, and the hook removes it without raising. -/
theorem collect_cleanup_amended_witness :
    (collectThroughFile ([5] : List Nat) (some 0) true).fileRemains = true
    ∧ (clean_up_file true true).1 = false := by
  have h := collect_cleanup_amended ([5] : List Nat) 0 true
  exact ⟨(h.2.1 (by decide)).1, h.2.2.1 true⟩

/-! ## groupByKey and cogroup

`RDD.groupByKey` is `combineByKey` with singleton-list `createCombiner`,
append `mergeValue` and concatenation `mergeCombiners`. -/

def groupByKey {κ V : Type} [DecidableEq κ] (hashF : κ → Nat) (n : Nat)
    (parts : List (List (κ × V))) : List (List (κ × List V)) :=
  combineByKey (fun x => [x]) (fun xs x => xs ++ [x]) (fun a b => a ++ b)
    hashF n parts

theorem foldl_append_singleton {V : Type} (vs : List V) :
    ∀ acc : List V, vs.foldl (fun xs x => xs ++ [x]) acc = acc ++ vs := by
  induction vs with
  | nil => intro acc; simp
  | cons v vs ih =>
      intro acc
      rw [List.foldl_cons, ih (acc ++ [v])]
      simp

theorem foldl_append_start {V : Type} (cs : List (List V)) :
    ∀ c : List V, cs.foldl (fun a b => a ++ b) c = c ++ cs.flatten := by
  induction cs with
  | nil => intro c; simp
  | cons d ds ih =>
      intro c
      rw [List.foldl_cons, ih (c ++ d), List.flatten_cons, List.append_assoc]

/-- Grouped-value view of a key's value sequence: `none` for an absent
key, otherwise the full sequence. -/
def groupedOf {V : Type} : List V → Option (List V)
  | [] => none
  | v :: vs => some (v :: vs)

theorem aggOf_singleton {V : Type} (l : List V) :
    aggOf (fun x => [x]) (fun xs x => xs ++ [x]) l = groupedOf l := by
  cases l with
  | nil => rfl
  | cons v vs =>
      show some (vs.foldl (fun xs x => xs ++ [x]) [v]) = some (v :: vs)
      rw [foldl_append_singleton vs [v]]
      rfl

theorem flatten_filterMap_match {V : Type} (ls : List (List V)) :
    (ls.filterMap groupedOf).flatten = ls.flatten := by
  induction ls with
  | nil => rfl
  | cons l rest ih =>
      cases l with
      | nil => simpa [List.filterMap_cons, groupedOf] using ih
      | cons v vs => simp [List.filterMap_cons, groupedOf, ih]

theorem aggOf_concat_eq_flatten {V : Type} (ls : List (List V)) :
    aggOf id (fun a b => a ++ b) (ls.filterMap groupedOf)
      = groupedOf ls.flatten := by
  induction ls with
  | nil => rfl
  | cons l rest ih =>
      cases l with
      | nil => simpa [List.filterMap_cons, groupedOf] using ih
      | cons v vs =>
          rw [List.filterMap_cons]
          show aggOf id (fun a b => a ++ b) ((v :: vs) :: _) = _
          rw [aggOf]
          rw [foldl_append_start _ (id (v :: vs))]
          rw [flatten_filterMap_match rest]
          simp [groupedOf]

/-- The grouped list `groupByKey` associates with key `k` is the full
arrival-order value sequence of `k` across the dataset (`none` when the
key is absent). -/
theorem groupByKey_cbkValue {κ V : Type} [DecidableEq κ]
    (parts : List (List (κ × V))) (k : κ) :
    cbkValue (fun x => [x]) (fun xs x => xs ++ [x]) (fun a b => a ++ b) parts k
      = groupedOf (valuesOf k parts.flatten) := by
  rw [cbkValue]
  have hcong : parts.filterMap
      (fun p => alookup k (combineFold (fun x => [x]) (fun xs x => xs ++ [x]) p))
      = (parts.map (valuesOf k)).filterMap groupedOf := by
    rw [List.filterMap_map]
    apply List.filterMap_congr
    intro p _
    rw [Function.comp_apply, combineFold_alookup, aggOf_singleton]
  rw [hcong, aggOf_concat_eq_flatten, valuesOf_flatten]

theorem valuesOf_map_tag {κ V W : Type} [DecidableEq κ] (k : κ) (t : V → W)
    (p : List (κ × V)) :
    valuesOf k (p.map (fun kv => (kv.1, t kv.2))) = (valuesOf k p).map t := by
  induction p with
  | nil => rfl
  | cons kv rest ih =>
      obtain ⟨k₁, v⟩ := kv
      by_cases h : k₁ = k <;>
        simp [valuesOf_cons, h, ih]

theorem valuesOf_flatten_map_tag {κ V W : Type} [DecidableEq κ] (k : κ)
    (t : V → W) (A : List (List (κ × V))) :
    valuesOf k ((A.map (fun p => p.map (fun kv => (kv.1, t kv.2)))).flatten)
      = (valuesOf k A.flatten).map t := by
  rw [valuesOf_flatten, List.map_map]
  rw [show (valuesOf k A.flatten).map t
      = ((A.map (valuesOf k)).flatten).map t from by rw [valuesOf_flatten]]
  rw [List.map_flatten, List.map_map]
  apply congrArg
  apply List.map_congr_left
  intro p _
  exact valuesOf_map_tag k t p

/-- Left and right halves of a grouped list of side-tagged values. -/
def sumLefts {V W : Type} (g : List (V ⊕ W)) : List V :=
  g.filterMap (fun s => match s with | .inl v => some v | .inr _ => none)

def sumRights {V W : Type} (g : List (V ⊕ W)) : List W :=
  g.filterMap (fun s => match s with | .inl _ => none | .inr w => some w)

theorem sumLefts_tagged {V W : Type} (xs : List V) (ys : List W) :
    sumLefts (xs.map Sum.inl ++ ys.map Sum.inr) = xs := by
  rw [sumLefts, List.filterMap_append, List.filterMap_map, List.filterMap_map]
  have h1 : xs.filterMap ((fun s => match s with
      | Sum.inl v => some v
      | Sum.inr _ => none) ∘ (Sum.inl : V → V ⊕ W)) = xs := List.filterMap_some xs
  have h2 : ys.filterMap ((fun s => match s with
      | Sum.inl v => some v
      | Sum.inr _ => none) ∘ (Sum.inr : W → V ⊕ W)) = [] :=
    List.filterMap_eq_nil_iff.mpr (fun a _ => rfl)
  rw [h1, h2, List.append_nil]

theorem sumRights_tagged {V W : Type} (xs : List V) (ys : List W) :
    sumRights (xs.map Sum.inl ++ ys.map Sum.inr) = ys := by
  rw [sumRights, List.filterMap_append, List.filterMap_map, List.filterMap_map]
  have h1 : xs.filterMap ((fun s => match s with
      | Sum.inl _ => none
      | Sum.inr w => some w) ∘ (Sum.inl : V → V ⊕ W)) = [] :=
    List.filterMap_eq_nil_iff.mpr (fun a _ => rfl)
  have h2 : ys.filterMap ((fun s => match s with
      | Sum.inl _ => none
      | Sum.inr w => some w) ∘ (Sum.inr : W → V ⊕ W)) = ys := List.filterMap_some ys
  rw [h1, h2, List.nil_append]

/-- Side-tagged union of the two datasets' partition lists, as cogroup
feeds it to `groupByKey`: left records first, right records after, each
pair keeping its key and wrapping its value in its side. -/
def tagUnion {κ V W : Type} (A : List (List (κ × V))) (B : List (List (κ × W))) :
    List (List (κ × (V ⊕ W))) :=
  A.map (fun p => p.map (fun kv => (kv.1, Sum.inl kv.2)))
    ++ B.map (fun p => p.map (fun kv => (kv.1, Sum.inr kv.2)))

theorem tagUnion_values {κ V W : Type} [DecidableEq κ] (k : κ)
    (A : List (List (κ × V))) (B : List (List (κ × W))) :
    valuesOf k (tagUnion A B).flatten
      = (valuesOf k A.flatten).map Sum.inl ++ (valuesOf k B.flatten).map Sum.inr := by
  rw [tagUnion, List.flatten_append, valuesOf_append,
    valuesOf_flatten_map_tag, valuesOf_flatten_map_tag]

theorem tagUnion_values_ne_nil_iff {κ V W : Type} [DecidableEq κ] (k : κ)
    (A : List (List (κ × V))) (B : List (List (κ × W))) :
    valuesOf k (tagUnion A B).flatten ≠ []
      ↔ (k ∈ keysOf A.flatten ∨ k ∈ keysOf B.flatten) := by
  rw [ne_eq, tagUnion_values, List.append_eq_nil, List.map_eq_nil_iff,
    List.map_eq_nil_iff, valuesOf_eq_nil_iff, valuesOf_eq_nil_iff]
  tauto

/-- Modelled from the spec: `python_cogroup` lives in `pyspark/join.py`,
which is not among the source files here (`rdd.py` only imports and calls
it).  Per the spec, cogroup tags each record with its source side, unions
the streams, runs `groupByKey` — a single shuffle with one partition count
and one hash function for both datasets — over the tagged union, and
splits each key's grouped list back into a left and a right list. -/
def cogroupModel {κ V W : Type} [DecidableEq κ] (hashF : κ → Nat) (n : Nat)
    (A : List (List (κ × V))) (B : List (List (κ × W))) :
    List (List (κ × (List V × List W))) :=
  (groupByKey hashF n (tagUnion A B)).map
    (fun part => part.map (fun kg => (kg.1, (sumLefts kg.2, sumRights kg.2))))

theorem cogroupModel_flatten {κ V W : Type} [DecidableEq κ] (hashF : κ → Nat)
    (n : Nat) (A : List (List (κ × V))) (B : List (List (κ × W))) :
    (cogroupModel hashF n A B).flatten
      = ((groupByKey hashF n (tagUnion A B)).flatten).map
          (fun kg => (kg.1, (sumLefts kg.2, sumRights kg.2))) := by
  rw [cogroupModel, List.map_flatten]

theorem groupedOf_eq_some_iff {V : Type} (lv : List V) (g : List V) :
    groupedOf lv = some g ↔ (lv ≠ [] ∧ g = lv) := by
  cases lv with
  | nil => simp [groupedOf]
  | cons v vs =>
      constructor
      · intro h
        exact ⟨by simp, (Option.some.inj h).symm⟩
      · rintro ⟨_, rfl⟩
        rfl

theorem groupByKey_mem_iff {κ V : Type} [DecidableEq κ] (hashF : κ → Nat)
    {n : Nat} (hn : 0 < n) (parts : List (List (κ × V))) (k : κ) (g : List V) :
    (k, g) ∈ (groupByKey hashF n parts).flatten
      ↔ groupedOf (valuesOf k parts.flatten) = some g := by
  rw [groupByKey,
    combineByKey_mem_iff (fun x => [x]) (fun xs x => xs ++ [x])
      (fun a b => a ++ b) hashF hn parts k g,
    groupByKey_cbkValue]

/-- C8: cogroup (and the joins derived from it) routes both datasets
through one shared partitioner — a single `groupByKey` shuffle with one
partition count and one hash function over the tagged union — so a pair of
datasets with differing partition counts or hash functions can never reach
the shuffle: by construction every key's left and right records meet in
the single grouped entry of the one destination partition `hash(k) % n`,
and in no other. -/
theorem cogroup_shared_partitioner {κ V W : Type} [DecidableEq κ]
    (hashF : κ → Nat) {n : Nat} (hn : 0 < n)
    (A : List (List (κ × V))) (B : List (List (κ × W)))
    (k : κ) (l : List V) (r : List W) :
    ((k, (l, r)) ∈ (cogroupModel hashF n A B).flatten
      ↔ ((k ∈ keysOf A.flatten ∨ k ∈ keysOf B.flatten)
          ∧ l = valuesOf k A.flatten ∧ r = valuesOf k B.flatten))
    ∧ (∀ d, d < n →
        ((∃ e : κ × (List V × List W),
            e.1 = k ∧ e ∈ (cogroupModel hashF n A B).getD d [])
          ↔ (hashF k % n = d
              ∧ (k ∈ keysOf A.flatten ∨ k ∈ keysOf B.flatten)))) := by
  constructor
  · constructor
    · intro hmem
      rw [cogroupModel_flatten] at hmem
      obtain ⟨⟨k', g⟩, hkg, heq⟩ := List.mem_map.mp hmem
      have hk : k' = k := congrArg Prod.fst heq
      subst hk
      have hsnd := congrArg Prod.snd heq
      have hl : sumLefts g = l := congrArg Prod.fst hsnd
      have hr : sumRights g = r := congrArg Prod.snd hsnd
      have hval := (groupByKey_mem_iff hashF hn (tagUnion A B) k' g).mp hkg
      obtain ⟨hne, hg⟩ := (groupedOf_eq_some_iff _ g).mp hval
      refine ⟨(tagUnion_values_ne_nil_iff k' A B).mp hne, ?_, ?_⟩
      · rw [← hl, hg, tagUnion_values, sumLefts_tagged]
      · rw [← hr, hg, tagUnion_values, sumRights_tagged]
    · rintro ⟨hkey, hl, hr⟩
      have hne : valuesOf k (tagUnion A B).flatten ≠ [] :=
        (tagUnion_values_ne_nil_iff k A B).mpr hkey
      have hval : groupedOf (valuesOf k (tagUnion A B).flatten)
          = some (valuesOf k (tagUnion A B).flatten) :=
        (groupedOf_eq_some_iff _ _).mpr ⟨hne, rfl⟩
      have hmem := (groupByKey_mem_iff hashF hn (tagUnion A B) k _).mpr hval
      rw [cogroupModel_flatten]
      refine List.mem_map.mpr
        ⟨(k, valuesOf k (tagUnion A B).flatten), hmem, ?_⟩
      rw [hl, hr]
      show (k, (sumLefts (valuesOf k (tagUnion A B).flatten),
        sumRights (valuesOf k (tagUnion A B).flatten)))
        = (k, (valuesOf k A.flatten, valuesOf k B.flatten))
      rw [tagUnion_values, sumLefts_tagged, sumRights_tagged]
  · intro d hd
    have hget : (cogroupModel hashF n A B).getD d []
        = (mergedDest (fun x => [x]) (fun xs x => xs ++ [x])
            (fun a b => a ++ b) hashF n (tagUnion A B) d).map
            (fun kg => (kg.1, (sumLefts kg.2, sumRights kg.2))) := by
      rw [cogroupModel, groupByKey, combineByKey_eq_map_range, List.map_map,
        List.getD_eq_getElem?_getD, List.getElem?_map, List.getElem?_range hd]
      simp
    constructor
    · rintro ⟨e, he1, hemem⟩
      rw [hget] at hemem
      obtain ⟨kg, hkg, heq⟩ := List.mem_map.mp hemem
      have hk : kg.1 = k := (congrArg Prod.fst heq).trans he1
      have hkey : k ∈ keysOf (mergedDest (fun x => [x])
          (fun xs x => xs ++ [x]) (fun a b => a ++ b) hashF n
          (tagUnion A B) d) := by
        rw [keysOf]
        exact List.mem_map.mpr ⟨kg, hkg, hk⟩
      have h2 := (mem_keysOf_mergedDest (fun x => [x]) (fun xs x => xs ++ [x])
        (fun a b => a ++ b) hashF n (tagUnion A B) d k).mp hkey
      refine ⟨h2.1, ?_⟩
      have h3 := h2.2
      rw [groupByKey_cbkValue] at h3
      have hne : valuesOf k (tagUnion A B).flatten ≠ [] := by
        cases hv : valuesOf k (tagUnion A B).flatten with
        | nil =>
            rw [hv] at h3
            exact absurd h3 (by simp [groupedOf])
        | cons v vs => simp [hv]
      exact (tagUnion_values_ne_nil_iff k A B).mp hne
    · rintro ⟨hdest, hkey⟩
      have hne := (tagUnion_values_ne_nil_iff k A B).mpr hkey
      have hsome : (cbkValue (fun x => [x]) (fun xs x => xs ++ [x])
          (fun a b => a ++ b) (tagUnion A B) k).isSome = true := by
        rw [groupByKey_cbkValue]
        cases hv : valuesOf k (tagUnion A B).flatten with
        | nil => exact absurd hv hne
        | cons v vs => rfl
      have hkmem := (mem_keysOf_mergedDest (fun x => [x])
        (fun xs x => xs ++ [x]) (fun a b => a ++ b) hashF n
        (tagUnion A B) d k).mpr ⟨hdest, hsome⟩
      rw [keysOf] at hkmem
      obtain ⟨kg, hkg, hfst⟩ := List.mem_map.mp hkmem
      refine ⟨(kg.1, (sumLefts kg.2, sumRights kg.2)), hfst, ?_⟩
      rw [hget]
      exact List.mem_map.mpr ⟨kg, hkg, rfl⟩

/-- C8 witness at concrete datasets: with the identity hash and two
splits, key `1`'s left values `[10]` and right values `[20]` meet in the
single cogroup entry, and that entry sits in destination `1 % 2`. -/
theorem cogroup_shared_partitioner_witness :
    ((1 : Nat), (([10] : List Nat), ([20] : List Nat)))
      ∈ (cogroupModel (fun k => k) 2 [[(1, 10)]] [[(1, 20)], [(2, 30)]]).flatten
    ∧ (∃ e : Nat × (List Nat × List Nat), e.1 = 1
        ∧ e ∈ (cogroupModel (fun k => k) 2 [[(1, 10)]]
            [[(1, 20)], [(2, 30)]]).getD (1 % 2) []) := by
  have h := cogroup_shared_partitioner (fun k => k) (by decide : (0 : Nat) < 2)
    [[(1, 10)]] [[(1, 20)], [(2, 30)]] 1 [10] [20]
  exact ⟨h.1.mpr (by decide), (h.2 (1 % 2) (by decide)).mpr (by decide)⟩

end SgxSpark
